import Mathlib

set_option maxHeartbeats 1000000

namespace MdxConverter

/-!
Shallow embedding of mdx_converter.py.

The Markup Stripper applies, in order, the three substitutions of
convert_mdx_to_html, convert_mdx_to_pdf and convert_mdx_to_docx:
first the pattern import.*?; (dot not matching a newline), then the
DOTALL pattern matching a paired capitalized-tag span, then the pattern
matching a self-closing capitalized tag.  Each matcher below returns the
length of the regex match starting at the head of the given character
list, when there is one, and the scanner reproduces the left-to-right,
non-overlapping behaviour of re.sub with an empty replacement.
-/

/-- Characters matched by the regex class of capital letters: the ASCII
range from A to Z. -/
def isUpperAZ (c : Char) : Bool := decide ('A' ≤ c) && decide (c ≤ 'Z')

/-- Character list of the keyword opening an import declaration. -/
def impTok : List Char := "import".toList

/-- Lazy tail of the import pattern: the shortest run of non-newline
characters ended by a semicolon, returning its length, semicolon
included.  The dot of this pattern does not match a newline. -/
def matchImportTail : List Char → Option Nat
  | [] => none
  | c :: cs =>
    if c = ';' then some 1
    else if c = '\n' then none
    else (matchImportTail cs).map (· + 1)

/-- Matcher for the whole import pattern at the head of the text,
returning the length of the match when there is one. -/
def matchImport (l : List Char) : Option Nat :=
  if impTok.isPrefixOf l then (matchImportTail (l.drop 6)).map (· + 6) else none

/-- Matcher for the greedy segment consuming every character up to and
including the first greater-than sign, returning the consumed length. -/
def matchToGt : List Char → Option Nat
  | [] => none
  | c :: cs => if c = '>' then some 1 else (matchToGt cs).map (· + 1)

/-- Matcher for a closing component tag at the head of the text: a
less-than sign, a slash, a capital letter, then everything up to the
first greater-than sign. -/
def matchCloseTag : List Char → Option Nat
  | c1 :: c2 :: c3 :: cs =>
    if c1 = '<' ∧ c2 = '/' ∧ isUpperAZ c3 = true then (matchToGt cs).map (· + 3)
    else none
  | _ => none

/-- Lazy middle of the paired-span pattern under DOTALL: the shortest run
of arbitrary characters, newlines included, followed by a closing
component tag; returns run length plus closing-tag length. -/
def matchSpanTail : List Char → Option Nat
  | [] => none
  | c :: cs =>
    match matchCloseTag (c :: cs) with
    | some n => some n
    | none => (matchSpanTail cs).map (· + 1)

/-- Matcher for a paired component span at the head of the text: an
opening capitalized tag running to the first greater-than sign, then the
lazy DOTALL middle ending at the first closing component tag. -/
def matchSpan : List Char → Option Nat
  | c1 :: c2 :: cs =>
    if c1 = '<' ∧ isUpperAZ c2 = true then
      match matchToGt cs with
      | some n1 =>
        match matchSpanTail (cs.drop n1) with
        | some n2 => some (2 + n1 + n2)
        | none => none
      | none => none
    else none
  | _ => none

/-- Lazy tail of the self-closing pattern: the shortest run of characters
other than slash and greater-than, ended by a slash immediately followed
by a greater-than sign. -/
def matchSelfCloseTail : List Char → Option Nat
  | [] => none
  | c :: cs =>
    if c = '/' then
      match cs with
      | '>' :: _ => some 2
      | _ => none
    else if c = '>' then none
    else (matchSelfCloseTail cs).map (· + 1)

/-- Matcher for a self-closing component tag at the head of the text. -/
def matchSelfClose : List Char → Option Nat
  | c1 :: c2 :: cs =>
    if c1 = '<' ∧ isUpperAZ c2 = true then (matchSelfCloseTail cs).map (· + 2)
    else none
  | _ => none

/-- Fueled global-substitution scanner mirroring re.sub with an empty
replacement: walk the text left to right; at each position try the
matcher; on a match drop the matched characters and continue after them,
otherwise keep one character and move on.  The fuel serves structural
recursion only; with fuel at least the text length it never runs out. -/
def stripScanF (m : List Char → Option Nat) : Nat → List Char → List Char
  | _, [] => []
  | 0, l => l
  | fuel + 1, c :: cs =>
    match m (c :: cs) with
    | some n => stripScanF m fuel (cs.drop (n - 1))
    | none => c :: stripScanF m fuel cs

/-- Global substitution of a matcher by the empty string, as re.sub
performs it. -/
def stripScan (m : List Char → Option Nat) (l : List Char) : List Char :=
  stripScanF m l.length l

/-- First stripping pass of the source: removal of import declarations. -/
def stripImports (l : List Char) : List Char := stripScan matchImport l

/-- Second stripping pass of the source: removal of paired component
spans under DOTALL. -/
def stripSpans (l : List Char) : List Char := stripScan matchSpan l

/-- Third stripping pass of the source: removal of self-closing component
tags. -/
def stripSelfClosing (l : List Char) : List Char := stripScan matchSelfClose l

/-- The three regex passes of the source applied in their order. -/
def stripAll (l : List Char) : List Char :=
  stripSelfClosing (stripSpans (stripImports l))

/-- String-level Markup Stripper. -/
def stripMdx (s : String) : String := String.mk (stripAll s.data)

/-!
Model of the DOCX emitter of convert_mdx_to_docx: BeautifulSoup parses
the rendered HTML into a tree; soup.find_all with the fixed tag list
yields every matching descendant in document order; the loop then turns
each matched element into document content.
-/

/-- Parsed HTML tree node: tag name, flattened text content, children. -/
inductive Element : Type where
  | mk (name : String) (text : String) (children : List Element)

/-- Tag name of a node. -/
def Element.name : Element → String
  | .mk n _ _ => n

/-- Flattened text content of a node. -/
def Element.text : Element → String
  | .mk _ t _ => t

/-- Child nodes of a node. -/
def Element.children : Element → List Element
  | .mk _ _ c => c

mutual

/-- Occurrences of one node and of its descendants whose name lies in the
given tag list, in document order, as soup.find_all collects them. -/
def findAllE (tags : List String) : Element → List Element
  | .mk n t cs =>
    (if n ∈ tags then [Element.mk n t cs] else []) ++ findAllList tags cs

/-- Descendants with a name in the given tag list, in document order, as
soup.find_all returns them over a forest. -/
def findAllList (tags : List String) : List Element → List Element
  | [] => []
  | e :: rest => findAllE tags e ++ findAllList tags rest

end

/-- Tag list passed to soup.find_all in convert_mdx_to_docx. -/
def docxTags : List String :=
  ["h1", "h2", "h3", "h4", "h5", "h6", "p", "pre", "code", "ul", "ol", "li"]

/-- Content blocks appended to the Word document: styled heading, plain
paragraph, code-styled paragraph, bulleted item, numbered item. -/
inductive DocxBlock : Type where
  | heading (level : Nat) (text : String)
  | para (text : String)
  | codePara (text : String)
  | bullet (text : String)
  | numbered (text : String)
deriving DecidableEq

/-- Texts of the direct li children of a node, as
element.find_all with recursive set to false returns them. -/
def directLis (e : Element) : List String :=
  (e.children.filter (fun c => c.name = "li")).map Element.text

/-- Branch body of the processing loop for one matched element: headings
by their digit, paragraphs, code-styled paragraphs for pre and code,
bullets for the direct items of an unordered list, numbered items for an
ordered list; every other matched tag, li included, adds nothing. -/
def emitBlock (e : Element) : List DocxBlock :=
  match e.name.data with
  | 'h' :: c :: _ => [DocxBlock.heading (c.toNat - 48) e.text]
  | _ =>
    if e.name = "p" then [DocxBlock.para e.text]
    else if e.name = "pre" ∨ e.name = "code" then [DocxBlock.codePara e.text]
    else if e.name = "ul" then
      (directLis e).map (fun t => DocxBlock.bullet ("• " ++ t))
    else if e.name = "ol" then
      (directLis e).enum.map
        (fun it => DocxBlock.numbered (toString (it.1 + 1) ++ ". " ++ it.2))
    else []

/-- Concatenated emission over a list of elements. -/
def emitBlocks : List Element → List DocxBlock
  | [] => []
  | e :: es => emitBlock e ++ emitBlocks es

/-- Word-processor emitter: the processing loop of convert_mdx_to_docx
over the parsed tree. -/
def docxEmit (roots : List Element) : List DocxBlock :=
  emitBlocks (findAllList docxTags roots)

/-- Modelled from the spec: the scenario's rendered HTML, which the spec
states as one level-1 heading followed by one paragraph, parsed into the
element forest handed to the Word-processor emitter.  The external
Markdown renderer itself is not part of the source. -/
def scenarioHtml : List Element :=
  [Element.mk "h1" "Title" [], Element.mk "p" "Hello  world" []]

/-!
Model of the PDF path of convert_mdx_to_pdf: the rendered HTML fragment
is interpolated into a fixed page template and the whole document handed
to the rasterizer.
-/

/-- Page template text before the interpolated HTML fragment, copied from
the f-string of convert_mdx_to_pdf. -/
def pdfPre : String :=
  "\n        <!DOCTYPE html>\n        <html>\n        <head>\n            <meta charset=\"utf-8\">\n            <style>\n                body \x7b font-family: Arial, sans-serif; margin: 20px; \x7d\n                pre \x7b background-color: #f5f5f5; padding: 10px; border-radius: 5px; \x7d\n                code \x7b font-family: monospace; \x7d\n            </style>\n        </head>\n        <body>\n            "

/-- Page template text after the interpolated HTML fragment. -/
def pdfPost : String := "\n        </body>\n        </html>\n        "

/-- Full HTML document handed to the rasterizer, at character level. -/
def pdfDocumentL (html : List Char) : List Char :=
  pdfPre.data ++ html ++ pdfPost.data

/-- Full HTML document handed to the rasterizer. -/
def pdfDocument (html : String) : String := String.mk (pdfDocumentL html.data)

/-!
Model of the File/Directory Driver: process_file runs one conversion per
requested format; each conversion either writes its output file or
prints an error and terminates the process through sys.exit with code 1;
process_directory runs process_file on every discovered source file;
main dispatches on the kind of input path.
-/

/-- Source file abstracted by its stem and, per format name, whether its
conversion succeeds; an unsuccessful conversion terminates the process. -/
structure SrcFile where
  stem : String
  ok : String → Bool

/-- Loop of process_file over the requested formats: each successful
conversion appends its output name; the first failing conversion stops
the process with exit code 1, keeping the outputs already written. -/
def processFileAcc (f : SrcFile) : List String → List String × Option Nat
  | [] => ([], none)
  | fmt :: rest =>
    if f.ok fmt then
      let r := processFileAcc f rest
      ((f.stem ++ "." ++ fmt) :: r.1, r.2)
    else ([], some 1)

/-- Loop of process_directory over the discovered files: processing stops
at the first conversion that exits; outputs of earlier files remain. -/
def processDirectory : List SrcFile → List String → List String × Option Nat
  | [], _ => ([], none)
  | f :: rest, fmts =>
    let r := processFileAcc f fmts
    match r.2 with
    | some code => (r.1, some code)
    | none =>
      let r2 := processDirectory rest fmts
      (r.1 ++ r2.1, r2.2)

/-- Kind and payload of the input path handed to main: a regular file
with its lowercased extension, a directory with its discovered source
files, or a missing path. -/
inductive InputPath : Type where
  | file (suffixLower : String) (f : SrcFile)
  | dir (files : List SrcFile)
  | missing

/-- Outcome of a run of main: the output files written and the process
exit code. -/
structure RunResult where
  outputs : List String
  exitCode : Nat
deriving DecidableEq

/-- Dispatch of main after argument parsing: a regular file must carry
the recognized extension or the process exits with code 1 before any
output; a directory is processed file by file; a missing path exits with
code 1. -/
def mainModel (inp : InputPath) (fmts : List String) : RunResult :=
  match inp with
  | .file suf f =>
    if suf = ".mdx" then
      let r := processFileAcc f fmts
      ⟨r.1, (r.2).getD 0⟩
    else ⟨[], 1⟩
  | .dir files =>
    let r := processDirectory files fmts
    ⟨r.1, (r.2).getD 0⟩
  | .missing => ⟨[], 1⟩

/-! Substring machinery. -/

/-- Boolean test for a contiguous occurrence of pat inside l. -/
def containsSub (pat : List Char) : List Char → Bool
  | [] => pat.isEmpty
  | c :: cs => pat.isPrefixOf (c :: cs) || containsSub pat cs

theorem isPrefixOf_iff :
    ∀ (pat l : List Char), pat.isPrefixOf l = true ↔ ∃ t, l = pat ++ t
  | [], l => by simp [List.isPrefixOf]
  | p :: ps, [] => by simp [List.isPrefixOf]
  | p :: ps, c :: cs => by
    simp only [List.isPrefixOf, Bool.and_eq_true, beq_iff_eq, isPrefixOf_iff ps cs,
      List.cons_append, List.cons.injEq]
    constructor
    · rintro ⟨rfl, t, rfl⟩
      exact ⟨t, rfl, rfl⟩
    · rintro ⟨t, rfl, rfl⟩
      exact ⟨rfl, t, rfl⟩

theorem isPrefixOf_append_self (l r : List Char) : l.isPrefixOf (l ++ r) = true :=
  (isPrefixOf_iff l (l ++ r)).2 ⟨r, rfl⟩

theorem mem_of_isPrefixOf {x : Char} {pat l : List Char} (hx : x ∈ pat)
    (h : pat.isPrefixOf l = true) : x ∈ l := by
  obtain ⟨t, rfl⟩ := (isPrefixOf_iff pat l).1 h
  exact List.mem_append.2 (Or.inl hx)

theorem isPrefixOf_mono {pat a : List Char} (r : List Char)
    (h : pat.isPrefixOf a = true) : pat.isPrefixOf (a ++ r) = true := by
  obtain ⟨t, rfl⟩ := (isPrefixOf_iff pat a).1 h
  exact (isPrefixOf_iff _ _).2 ⟨t ++ r, by simp⟩

theorem isPrefixOf_cut {x : Char} {pat : List Char} :
    ∀ (a s : List Char), x ∉ pat →
      pat.isPrefixOf (a ++ x :: s) = true → pat.isPrefixOf a = true := by
  induction pat with
  | nil => intro a s _ _; simp [List.isPrefixOf_nil_left]
  | cons p ps ih =>
    intro a s hx h
    cases a with
    | nil =>
      simp only [List.nil_append, List.isPrefixOf, Bool.and_eq_true, beq_iff_eq] at h
      exact absurd (h.1 ▸ List.mem_cons_self p ps) hx
    | cons b bs =>
      simp only [List.cons_append, List.isPrefixOf, Bool.and_eq_true, beq_iff_eq] at h ⊢
      exact ⟨h.1, ih bs s (fun hm => hx (List.mem_cons_of_mem p hm)) h.2⟩

theorem containsSub_nil_pat (l : List Char) : containsSub [] l = true := by
  cases l <;> simp [containsSub, List.isPrefixOf]

theorem containsSub_of_isPrefixOf {pat l : List Char}
    (h : pat.isPrefixOf l = true) : containsSub pat l = true := by
  cases l with
  | nil =>
    obtain ⟨t, ht⟩ := (isPrefixOf_iff pat []).1 h
    have : pat = [] := by
      cases pat with
      | nil => rfl
      | cons c cs => simp at ht
    simp [this, containsSub]
  | cons c cs => simp [containsSub, h]

theorem containsSub_of_drop {pat : List Char} :
    ∀ (i : Nat) (l : List Char), pat.isPrefixOf (l.drop i) = true →
      containsSub pat l = true := by
  intro i
  induction i with
  | zero => intro l h; exact containsSub_of_isPrefixOf (by simpa using h)
  | succ n ih =>
    intro l h
    cases l with
    | nil => exact containsSub_of_isPrefixOf (by simpa using h)
    | cons c cs =>
      have := ih cs (by simpa using h)
      simp [containsSub, this]

theorem containsSub_mono_left (pat l r : List Char)
    (h : containsSub pat r = true) : containsSub pat (l ++ r) = true := by
  induction l with
  | nil => simpa using h
  | cons c cs ih => simp [containsSub, ih]

theorem containsSub_mono_right (pat l r : List Char)
    (h : containsSub pat l = true) : containsSub pat (l ++ r) = true := by
  induction l with
  | nil =>
    have : pat = [] := by
      cases pat with
      | nil => rfl
      | cons c cs => simp [containsSub] at h
    simp [this, containsSub_nil_pat]
  | cons c cs ih =>
    simp only [containsSub, Bool.or_eq_true] at h
    rcases h with h | h
    · have h2 : pat.isPrefixOf ((c :: cs) ++ r) = true := isPrefixOf_mono r h
      rw [List.cons_append] at h2 ⊢
      simp only [containsSub, Bool.or_eq_true]
      exact Or.inl h2
    · rw [List.cons_append]
      simp only [containsSub, Bool.or_eq_true]
      exact Or.inr (ih h)

theorem mem_of_containsSub {x : Char} {pat : List Char} :
    ∀ {l : List Char}, x ∈ pat → containsSub pat l = true → x ∈ l := by
  intro l
  induction l with
  | nil =>
    intro hx h
    have : pat = [] := by
      cases pat with
      | nil => rfl
      | cons c cs => simp [containsSub] at h
    subst this
    simp at hx
  | cons c cs ih =>
    intro hx h
    simp only [containsSub, Bool.or_eq_true] at h
    rcases h with h | h
    · exact mem_of_isPrefixOf hx h
    · exact List.mem_cons_of_mem c (ih hx h)

theorem containsSub_break {pat : List Char} {x : Char} :
    ∀ {q : List Char} (s : List Char), x ∉ pat →
      containsSub pat (q ++ x :: s) = true →
      containsSub pat (q ++ [x]) = true ∨ containsSub pat s = true := by
  intro q
  induction q with
  | nil =>
    intro s hx h
    simp only [List.nil_append, containsSub, Bool.or_eq_true] at h
    rcases h with h | h
    · have hnil : pat.isPrefixOf ([] : List Char) = true :=
        isPrefixOf_cut [] s hx h
      exact Or.inl (containsSub_of_isPrefixOf (isPrefixOf_mono [x] hnil))
    · exact Or.inr h
  | cons c q' ih =>
    intro s hx h
    simp only [List.cons_append, containsSub, Bool.or_eq_true] at h
    rcases h with h | h
    · have hpre : pat.isPrefixOf (c :: q') = true :=
        isPrefixOf_cut (c :: q') s hx (by simpa using h)
      exact Or.inl (containsSub_of_isPrefixOf (isPrefixOf_mono [x] hpre))
    · rcases ih s hx h with h2 | h2
      · exact Or.inl (by simp [containsSub, h2])
      · exact Or.inr h2

/-! Scanner lemmas. -/

theorem stripScanF_congr (m : List Char → Option Nat) :
    ∀ (fuel : Nat) (fuel' : Nat) (l : List Char), l.length ≤ fuel →
      l.length ≤ fuel' → stripScanF m fuel l = stripScanF m fuel' l := by
  intro fuel
  induction fuel with
  | zero =>
    intro fuel' l h _
    have : l = [] := List.eq_nil_of_length_eq_zero (Nat.le_zero.1 h)
    subst this
    cases fuel' <;> rfl
  | succ f ih =>
    intro fuel' l h h'
    cases l with
    | nil => cases fuel' <;> rfl
    | cons c cs =>
      cases fuel' with
      | zero => simp at h'
      | succ f' =>
        simp only [stripScanF]
        cases hm : m (c :: cs) with
        | none =>
          have : cs.length ≤ f := by simpa using h
          have h2 : cs.length ≤ f' := by simpa using h'
          simp [ih f' cs this h2]
        | some n =>
          have hd : (cs.drop (n - 1)).length ≤ f := by
            have := List.length_drop (n - 1) cs
            simp only [List.length_cons] at h
            omega
          have hd' : (cs.drop (n - 1)).length ≤ f' := by
            have := List.length_drop (n - 1) cs
            simp only [List.length_cons] at h'
            omega
          simp [ih f' _ hd hd']

theorem stripScan_cons_none {m : List Char → Option Nat} {c : Char}
    {cs : List Char} (h : m (c :: cs) = none) :
    stripScan m (c :: cs) = c :: stripScan m cs := by
  unfold stripScan
  simp [stripScanF, h]

theorem stripScan_cons_some {m : List Char → Option Nat} {c : Char}
    {cs : List Char} {n : Nat} (h : m (c :: cs) = some n) :
    stripScan m (c :: cs) = stripScan m (cs.drop (n - 1)) := by
  unfold stripScan
  simp only [List.length_cons, stripScanF, h]
  apply stripScanF_congr
  · have := List.length_drop (n - 1) cs
    omega
  · exact Nat.le_refl _

theorem stripScan_append_none {m : List Char → Option Nat} :
    ∀ (p : List Char) (r : List Char),
      (∀ i, i < p.length → m ((p ++ r).drop i) = none) →
      stripScan m (p ++ r) = p ++ stripScan m r := by
  intro p
  induction p with
  | nil => intro r _; simp
  | cons c p' ih =>
    intro r h
    have h0 : m (c :: (p' ++ r)) = none := by
      have := h 0 (by simp)
      simpa using this
    rw [List.cons_append, stripScan_cons_none h0,
      ih r (fun i hi => by
        have := h (i + 1) (by simp only [List.length_cons]; omega)
        simpa using this)]
    simp

theorem stripScan_nil (m : List Char → Option Nat) : stripScan m [] = [] := rfl

theorem stripScan_id {m : List Char → Option Nat} (l : List Char)
    (h : ∀ i, i < l.length → m (l.drop i) = none) : stripScan m l = l := by
  have := stripScan_append_none l [] (by simpa using h)
  simpa [stripScan_nil] using this

/-! Matcher computation lemmas. -/

theorem matchImport_none {l : List Char} (h : impTok.isPrefixOf l = false) :
    matchImport l = none := by
  simp [matchImport, h]

theorem matchImportTail_exact {mid : List Char} (r : List Char)
    (h1 : ';' ∉ mid) (h2 : '\n' ∉ mid) :
    matchImportTail (mid ++ ';' :: r) = some (mid.length + 1) := by
  induction mid with
  | nil => simp [matchImportTail]
  | cons c cs ih =>
    have hc1 : c ≠ ';' := fun hc => h1 (hc ▸ List.mem_cons_self c cs)
    have hc2 : c ≠ '\n' := fun hc => h2 (hc ▸ List.mem_cons_self c cs)
    have ih2 := ih (fun hm => h1 (List.mem_cons_of_mem c hm))
      (fun hm => h2 (List.mem_cons_of_mem c hm))
    rw [List.cons_append]
    simp only [matchImportTail, if_neg hc1, if_neg hc2]
    rw [ih2]
    rfl

theorem drop_append_left {a : List Char} (b : List Char) (n : Nat)
    (h : n = a.length) : (a ++ b).drop n = b := by
  subst h
  exact List.drop_left a b

theorem matchImport_exact {mid : List Char} (r : List Char)
    (h1 : ';' ∉ mid) (h2 : '\n' ∉ mid) :
    matchImport (impTok ++ (mid ++ ';' :: r)) = some (mid.length + 7) := by
  have hdrop : (impTok ++ (mid ++ ';' :: r)).drop 6 = mid ++ ';' :: r :=
    drop_append_left _ 6 (by decide)
  unfold matchImport
  rw [if_pos (isPrefixOf_append_self _ _), hdrop, matchImportTail_exact r h1 h2]
  show some (mid.length + 1 + 6) = some (mid.length + 7)
  exact congrArg some (by omega)

theorem matchToGt_exact {a : List Char} (r : List Char) (h : '>' ∉ a) :
    matchToGt (a ++ '>' :: r) = some (a.length + 1) := by
  induction a with
  | nil => simp [matchToGt]
  | cons c cs ih =>
    have hc : c ≠ '>' := fun hc => h (hc ▸ List.mem_cons_self c cs)
    have ih2 := ih (fun hm => h (List.mem_cons_of_mem c hm))
    rw [List.cons_append]
    simp only [matchToGt, if_neg hc]
    rw [ih2]
    rfl

theorem matchCloseTag_none_head {c : Char} (cs : List Char) (h : c ≠ '<') :
    matchCloseTag (c :: cs) = none := by
  cases cs with
  | nil => rfl
  | cons d ds =>
    cases ds with
    | nil => rfl
    | cons e es => simp [matchCloseTag, h]

theorem matchCloseTag_exact {G : Char} {β : List Char} (s : List Char)
    (hG : isUpperAZ G = true) (hβ : '>' ∉ β) :
    matchCloseTag ('<' :: '/' :: G :: (β ++ '>' :: s)) = some (β.length + 4) := by
  have hred : matchCloseTag ('<' :: '/' :: G :: (β ++ '>' :: s)) =
      (matchToGt (β ++ '>' :: s)).map (· + 3) := by
    simp [matchCloseTag, hG]
  rw [hred, matchToGt_exact s hβ]
  show some (β.length + 1 + 3) = some (β.length + 4)
  exact congrArg some (by omega)

theorem matchSpanTail_close {l : List Char} {n : Nat}
    (h : matchCloseTag l = some n) : matchSpanTail l = some n := by
  cases l with
  | nil => simp [matchCloseTag] at h
  | cons c cs => simp [matchSpanTail, h]

theorem matchSpanTail_skip {b : List Char} (r : List Char) (hb : '<' ∉ b) :
    matchSpanTail (b ++ r) = (matchSpanTail r).map (· + b.length) := by
  induction b with
  | nil =>
    rw [List.nil_append]
    cases h : matchSpanTail r with
    | none => rfl
    | some k => rfl
  | cons c b' ih =>
    have hc : c ≠ '<' := fun hc => hb (hc ▸ List.mem_cons_self c b')
    have ih2 := ih (fun hm => hb (List.mem_cons_of_mem c hm))
    rw [List.cons_append]
    simp only [matchSpanTail, matchCloseTag_none_head _ hc]
    rw [ih2]
    cases h : matchSpanTail r with
    | none => rfl
    | some k =>
      show some (k + b'.length + 1) = some (k + (c :: b').length)
      exact congrArg some (by simp only [List.length_cons]; omega)

theorem matchSpan_none_head {c : Char} (cs : List Char) (h : c ≠ '<') :
    matchSpan (c :: cs) = none := by
  cases cs with
  | nil => rfl
  | cons d ds => simp [matchSpan, h]

theorem matchSelfClose_none_head {c : Char} (cs : List Char) (h : c ≠ '<') :
    matchSelfClose (c :: cs) = none := by
  cases cs with
  | nil => rfl
  | cons d ds => simp [matchSelfClose, h]

theorem matchSpan_cons {c2 : Char} {cs : List Char} (h : isUpperAZ c2 = true) :
    matchSpan ('<' :: c2 :: cs) =
      match matchToGt cs with
      | some n1 =>
        (match matchSpanTail (cs.drop n1) with
         | some n2 => some (2 + n1 + n2)
         | none => none)
      | none => none := by
  simp [matchSpan, h]

theorem matchSpan_exact {F G : Char} {α body β : List Char} (s : List Char)
    (hF : isUpperAZ F = true) (hG : isUpperAZ G = true) (hα : '>' ∉ α)
    (hbody : '<' ∉ body) (hβ : '>' ∉ β) :
    matchSpan ('<' :: F ::
        (α ++ '>' :: (body ++ ('<' :: '/' :: G :: (β ++ '>' :: s))))) =
      some (α.length + body.length + β.length + 7) := by
  have h1 : matchToGt (α ++ '>' :: (body ++ ('<' :: '/' :: G :: (β ++ '>' :: s)))) =
      some (α.length + 1) := matchToGt_exact _ hα
  have hdrop : (α ++ '>' :: (body ++ ('<' :: '/' :: G :: (β ++ '>' :: s)))).drop
      (α.length + 1) = body ++ ('<' :: '/' :: G :: (β ++ '>' :: s)) := by
    have hsplit : α ++ '>' :: (body ++ ('<' :: '/' :: G :: (β ++ '>' :: s))) =
        (α ++ ['>']) ++ (body ++ ('<' :: '/' :: G :: (β ++ '>' :: s))) := by simp
    rw [hsplit]
    exact drop_append_left _ _ (by simp)
  have h3 : matchSpanTail (body ++ ('<' :: '/' :: G :: (β ++ '>' :: s))) =
      some (β.length + 4 + body.length) := by
    rw [matchSpanTail_skip _ hbody,
      matchSpanTail_close (matchCloseTag_exact s hG hβ)]
    rfl
  rw [matchSpan_cons hF, h1]
  dsimp only
  rw [hdrop, h3]
  dsimp only
  exact congrArg some (by omega)

theorem stripScan_append_lt {m : List Char → Option Nat}
    (hm : ∀ (c : Char) (cs : List Char), c ≠ '<' → m (c :: cs) = none) :
    ∀ (p r : List Char), '<' ∉ p →
      stripScan m (p ++ r) = p ++ stripScan m r := by
  intro p
  induction p with
  | nil => intro r _; simp
  | cons c p' ih =>
    intro r hp
    have hc : c ≠ '<' := fun h => hp (h ▸ List.mem_cons_self c p')
    rw [List.cons_append, stripScan_cons_none (hm c _ hc),
      ih r (fun h2 => hp (List.mem_cons_of_mem c h2))]
    rfl

theorem stripScan_id_lt {m : List Char → Option Nat}
    (hm : ∀ (c : Char) (cs : List Char), c ≠ '<' → m (c :: cs) = none)
    (l : List Char) (h : '<' ∉ l) : stripScan m l = l := by
  have := stripScan_append_lt hm l [] h
  simpa [stripScan_nil] using this

theorem stripSpans_exact {F G : Char} {p α body β s : List Char}
    (hF : isUpperAZ F = true) (hG : isUpperAZ G = true) (hα : '>' ∉ α)
    (hbody : '<' ∉ body) (hβ : '>' ∉ β) (hp : '<' ∉ p) (hs : '<' ∉ s) :
    stripSpans (p ++ ('<' :: F ::
        (α ++ '>' :: (body ++ ('<' :: '/' :: G :: (β ++ '>' :: s)))))) =
      p ++ s := by
  unfold stripSpans
  rw [stripScan_append_lt (fun c cs h => matchSpan_none_head cs h) p _ hp]
  have hsplit : F :: (α ++ '>' :: (body ++ ('<' :: '/' :: G :: (β ++ '>' :: s)))) =
      (F :: (α ++ '>' :: (body ++ ('<' :: '/' :: G :: (β ++ ['>']))))) ++ s := by
    simp
  have hlen : (F :: (α ++ '>' :: (body ++ ('<' :: '/' :: G :: (β ++ ['>']))))).length =
      α.length + body.length + β.length + 6 := by
    simp [List.length_cons, List.length_append]
    omega
  rw [stripScan_cons_some (matchSpan_exact s hF hG hα hbody hβ), hsplit,
    drop_append_left s _ (by rw [hlen]; omega),
    stripScan_id_lt (fun c cs h => matchSpan_none_head cs h) s hs]

theorem drop_append_le {a : List Char} :
    ∀ (b : List Char) (i : Nat), i ≤ a.length →
      (a ++ b).drop i = a.drop i ++ b := by
  induction a with
  | nil =>
    intro b i h
    have : i = 0 := Nat.le_zero.1 h
    subst this
    rfl
  | cons c cs ih =>
    intro b i h
    cases i with
    | zero => rfl
    | succ j =>
      rw [List.cons_append]
      show (cs ++ b).drop j = (c :: cs).drop (j + 1) ++ b
      exact ih b j (by simpa using h)

theorem matchImport_none_of_not_contains {l : List Char} (i : Nat)
    (h : containsSub impTok l = false) : matchImport (l.drop i) = none := by
  apply matchImport_none
  cases hb : impTok.isPrefixOf (l.drop i) with
  | false => rfl
  | true => exact absurd (containsSub_of_drop i l hb) (by simp [h])

theorem stripImports_id {l : List Char} (h : containsSub impTok l = false) :
    stripScan matchImport l = l :=
  stripScan_id l (fun i _ => matchImport_none_of_not_contains i h)

theorem stripImports_skip {p : List Char} (r q : List Char)
    (hq : p = q ++ ['\n']) (hpim : containsSub impTok p = false) :
    stripScan matchImport (p ++ r) = p ++ stripScan matchImport r := by
  apply stripScan_append_none
  intro i hi
  apply matchImport_none
  subst hq
  have hle : i ≤ q.length := by
    simp only [List.length_append, List.length_cons, List.length_nil] at hi
    omega
  have hdrop : ((q ++ ['\n']) ++ r).drop i = (q.drop i ++ ['\n']) ++ r := by
    rw [drop_append_le r i (by simp; omega), drop_append_le ['\n'] i hle]
  cases hb : impTok.isPrefixOf (((q ++ ['\n']) ++ r).drop i) with
  | false => rfl
  | true =>
    exfalso
    rw [hdrop] at hb
    have hb2 : impTok.isPrefixOf (q.drop i ++ '\n' :: r) = true := by
      have : (q.drop i ++ ['\n']) ++ r = q.drop i ++ '\n' :: r := by simp
      rw [this] at hb
      exact hb
    have hcut : impTok.isPrefixOf (q.drop i) = true :=
      isPrefixOf_cut (q.drop i) r (by decide) hb2
    have hfull : impTok.isPrefixOf ((q ++ ['\n']).drop i) = true := by
      rw [drop_append_le ['\n'] i hle]
      exact isPrefixOf_mono ['\n'] hcut
    exact absurd (containsSub_of_drop i _ hfull) (by simp [hpim])

theorem stripImports_line {p mid s : List Char}
    (hp : p = [] ∨ ∃ q, p = q ++ ['\n'])
    (hpim : containsSub impTok p = false)
    (hsim : containsSub impTok s = false)
    (h1 : ';' ∉ mid) (h2 : '\n' ∉ mid) :
    stripImports (p ++ (impTok ++ (mid ++ ';' :: s))) = p ++ s := by
  unfold stripImports
  have hm : matchImport ('i' :: ("mport".toList ++ (mid ++ ';' :: s))) =
      some (mid.length + 7) := matchImport_exact s h1 h2
  have hline : stripScan matchImport (impTok ++ (mid ++ ';' :: s)) = s := by
    show stripScan matchImport ('i' :: ("mport".toList ++ (mid ++ ';' :: s))) = s
    rw [stripScan_cons_some hm]
    have hsplit : "mport".toList ++ (mid ++ ';' :: s) =
        ("mport".toList ++ (mid ++ [';'])) ++ s := by simp
    rw [hsplit, drop_append_left s _ (by simp)]
    exact stripScan_id s (fun i _ => matchImport_none_of_not_contains i hsim)
  rcases hp with rfl | ⟨q, hq⟩
  · rw [List.nil_append, hline, List.nil_append]
  · rw [stripImports_skip _ q hq hpim, hline]

theorem containsSub_self (l : List Char) : containsSub l l = true :=
  containsSub_of_isPrefixOf ((isPrefixOf_iff _ _).2 ⟨[], by simp⟩)

theorem stripAll_id {l : List Char} (himp : containsSub impTok l = false)
    (hlt : '<' ∉ l) : stripAll l = l := by
  show stripSelfClosing (stripSpans (stripImports l)) = l
  rw [show stripImports l = l from stripImports_id himp,
    show stripSpans l = l from
      stripScan_id_lt (fun c cs h => matchSpan_none_head cs h) l hlt,
    show stripSelfClosing l = l from
      stripScan_id_lt (fun c cs h => matchSelfClose_none_head cs h) l hlt]

/-! Emitter and driver lemmas. -/

theorem emitBlocks_append (a b : List Element) :
    emitBlocks (a ++ b) = emitBlocks a ++ emitBlocks b := by
  induction a with
  | nil => rfl
  | cons e es ih => simp [emitBlocks, ih]

theorem docxEmit_cons_mem {n t : String} {cs : List Element} (h : n ∈ docxTags) :
    docxEmit [Element.mk n t cs] =
      emitBlock (Element.mk n t cs) ++ docxEmit cs := by
  unfold docxEmit
  simp only [findAllList, findAllE, if_pos h, List.append_nil, emitBlocks_append]
  simp [emitBlocks]

theorem docxEmit_cons_not_mem {n t : String} {cs : List Element}
    (h : n ∉ docxTags) : docxEmit [Element.mk n t cs] = docxEmit cs := by
  unfold docxEmit
  simp [findAllList, findAllE, if_neg h, emitBlocks_append]

theorem processFileAcc_ok {f : SrcFile} :
    ∀ {fmts : List String}, (∀ fm ∈ fmts, f.ok fm = true) →
      processFileAcc f fmts =
        (fmts.map (fun fm => f.stem ++ "." ++ fm), none) := by
  intro fmts
  induction fmts with
  | nil => intro _; rfl
  | cons fm rest ih =>
    intro h
    have h1 : f.ok fm = true := h fm (List.mem_cons_self fm rest)
    have h2 := ih (fun x hx => h x (List.mem_cons_of_mem fm hx))
    simp [processFileAcc, h1, h2]

theorem processDirectory_append_fail {pre post : List SrcFile} {f : SrcFile}
    {fmt0 : String} {rest : List String}
    (hpre : ∀ g ∈ pre, ∀ fm ∈ fmt0 :: rest, g.ok fm = true)
    (hf : f.ok fmt0 = false) :
    processDirectory (pre ++ f :: post) (fmt0 :: rest) =
      ((processDirectory pre (fmt0 :: rest)).1, some 1) := by
  induction pre with
  | nil => simp [processDirectory, processFileAcc, hf]
  | cons g pre' ih =>
    have hg : ∀ fm ∈ fmt0 :: rest, g.ok fm = true :=
      hpre g (List.mem_cons_self g pre')
    have hacc := processFileAcc_ok hg
    have ih2 := ih (fun g2 hg2 => hpre g2 (List.mem_cons_of_mem g hg2))
    rw [List.cons_append]
    simp only [processDirectory, hacc, ih2]

/-! Claim theorems. -/

/-- Claim C1, counterexample: in directory mode a failing first file does
not leave the remaining files processed; with two files of which the
first fails, no outputs are produced and the process exits with code 1,
contradicting the claimed per-file isolation and batch-success exit. -/
theorem C1_cex :
    mainModel (InputPath.dir [⟨"bad", fun _ => false⟩, ⟨"good", fun _ => true⟩])
      ["pdf", "docx"] = ⟨[], 1⟩ := rfl

/-- Claim C1, amended: a conversion failure in directory mode terminates
the whole process through sys.exit with code 1 at the first failing
file; only files processed before it keep their outputs, and the files
after it are never processed. -/
theorem C1_amended (pre post : List SrcFile) (f : SrcFile) (fmt0 : String)
    (rest : List String)
    (hpre : ∀ g ∈ pre, ∀ fm ∈ fmt0 :: rest, g.ok fm = true)
    (hf : f.ok fmt0 = false) :
    mainModel (InputPath.dir (pre ++ f :: post)) (fmt0 :: rest) =
      ⟨(processDirectory pre (fmt0 :: rest)).1, 1⟩ := by
  simp [mainModel, processDirectory_append_fail hpre hf]

/-- Witness for C1_amended at a concrete three-file directory. -/
theorem C1_witness :
    mainModel (InputPath.dir [⟨"good", fun _ => true⟩, ⟨"bad", fun _ => false⟩,
      ⟨"later", fun _ => true⟩]) ["pdf", "docx"] =
      ⟨(processDirectory [⟨"good", fun _ => true⟩] ["pdf", "docx"]).1, 1⟩ :=
  C1_amended [⟨"good", fun _ => true⟩] [⟨"later", fun _ => true⟩]
    ⟨"bad", fun _ => false⟩ "pdf" ["docx"] (by decide) (by decide)

/-- Claim C2, counterexample: the stripper does not remove export
declarations; an input consisting of one export declaration passes
through unchanged, so the output still contains it. -/
theorem C2_cex :
    stripMdx "export X;" = "export X;" ∧
    containsSub "export".toList (stripMdx "export X;").data = true :=
  ⟨by decide, by decide⟩

/-- Claim C2, amended: only import declarations are removed; any input
containing an export declaration, no import-pattern occurrence and no
angle bracket is returned unchanged, export declaration included. -/
theorem C2_amended (p mid s : List Char)
    (himp : containsSub impTok
      (p ++ ("export".toList ++ (mid ++ ';' :: s))) = false)
    (hlt : '<' ∉ p ++ ("export".toList ++ (mid ++ ';' :: s))) :
    stripAll (p ++ ("export".toList ++ (mid ++ ';' :: s))) =
      p ++ ("export".toList ++ (mid ++ ';' :: s)) ∧
    containsSub ("export".toList ++ (mid ++ [';']))
      (stripAll (p ++ ("export".toList ++ (mid ++ ';' :: s)))) = true := by
  have hid := stripAll_id himp hlt
  refine ⟨hid, ?_⟩
  rw [hid]
  apply containsSub_mono_left
  have hassoc : "export".toList ++ (mid ++ ';' :: s) =
      ("export".toList ++ (mid ++ [';'])) ++ s := by simp
  rw [hassoc]
  apply containsSub_mono_right
  exact containsSub_self _

/-- Witness for C2_amended at a concrete export declaration. -/
theorem C2_witness :
    stripAll ("Note: ".toList ++ ("export".toList ++ (" X".toList ++ ';' ::
      "\nafter".toList))) =
      "Note: ".toList ++ ("export".toList ++ (" X".toList ++ ';' ::
        "\nafter".toList)) ∧
    containsSub ("export".toList ++ (" X".toList ++ [';']))
      (stripAll ("Note: ".toList ++ ("export".toList ++ (" X".toList ++ ';' ::
        "\nafter".toList)))) = true :=
  C2_amended "Note: ".toList " X".toList "\nafter".toList (by decide) (by decide)

/-- Claim C3, counterexample: when the enclosed text of a balanced span
holds an unbalanced nested closing tag, the non-greedy match stops
early; part of the enclosed text and the closing tag survive all three
passes. -/
theorem C3_cex :
    stripMdx "<Foo>a</Bar> b </Foo>" = " b </Foo>" ∧
    containsSub "</Foo>".toList (stripMdx "<Foo>a</Bar> b </Foo>").data = true ∧
    containsSub " b ".toList (stripMdx "<Foo>a</Bar> b </Foo>").data = true :=
  ⟨by decide, by decide, by decide⟩

/-- Claim C3, amended: when the balanced span is the only markup — the
enclosed text and both tags hold no stray angle bracket, the
surrounding text holds no angle bracket, and no import pattern occurs —
the three passes remove exactly the span: the output is the surrounding
text and contains neither the opening tag, nor the closing tag, nor
(when it occurs nowhere outside the span) the enclosed text. -/
theorem C3_amended (F G : Char) (p α body β s : List Char)
    (hF : isUpperAZ F = true) (hG : isUpperAZ G = true)
    (hα : '>' ∉ α) (hbody : '<' ∉ body) (hβ : '>' ∉ β)
    (hp : '<' ∉ p) (hs : '<' ∉ s)
    (himp : containsSub impTok
      (p ++ ('<' :: F :: (α ++ '>' :: (body ++
        ('<' :: '/' :: G :: (β ++ '>' :: s)))))) = false)
    (hbodyout : containsSub body (p ++ s) = false) :
    stripAll (p ++ ('<' :: F :: (α ++ '>' :: (body ++
        ('<' :: '/' :: G :: (β ++ '>' :: s)))))) = p ++ s ∧
    containsSub ('<' :: F :: (α ++ ['>']))
      (stripAll (p ++ ('<' :: F :: (α ++ '>' :: (body ++
        ('<' :: '/' :: G :: (β ++ '>' :: s))))))) = false ∧
    containsSub ('<' :: '/' :: G :: (β ++ ['>']))
      (stripAll (p ++ ('<' :: F :: (α ++ '>' :: (body ++
        ('<' :: '/' :: G :: (β ++ '>' :: s))))))) = false ∧
    containsSub body
      (stripAll (p ++ ('<' :: F :: (α ++ '>' :: (body ++
        ('<' :: '/' :: G :: (β ++ '>' :: s))))))) = false := by
  have hltout : '<' ∉ p ++ s := by
    intro hmem
    rcases List.mem_append.1 hmem with h | h
    · exact hp h
    · exact hs h
  have h1 : stripImports (p ++ ('<' :: F :: (α ++ '>' :: (body ++
      ('<' :: '/' :: G :: (β ++ '>' :: s)))))) =
      p ++ ('<' :: F :: (α ++ '>' :: (body ++
        ('<' :: '/' :: G :: (β ++ '>' :: s))))) := stripImports_id himp
  have h2 := stripSpans_exact hF hG hα hbody hβ hp hs
  have h3 : stripSelfClosing (p ++ s) = p ++ s :=
    stripScan_id_lt (fun c cs h => matchSelfClose_none_head cs h) _ hltout
  have hout : stripAll (p ++ ('<' :: F :: (α ++ '>' :: (body ++
      ('<' :: '/' :: G :: (β ++ '>' :: s)))))) = p ++ s := by
    show stripSelfClosing (stripSpans (stripImports (p ++ ('<' :: F ::
      (α ++ '>' :: (body ++ ('<' :: '/' :: G :: (β ++ '>' :: s)))))))) = p ++ s
    rw [h1, h2, h3]
  refine ⟨hout, ?_, ?_, ?_⟩
  · rw [hout]
    cases hc : containsSub ('<' :: F :: (α ++ ['>'])) (p ++ s) with
    | false => rfl
    | true =>
      exact absurd (mem_of_containsSub (List.mem_cons_self _ _) hc) hltout
  · rw [hout]
    cases hc : containsSub ('<' :: '/' :: G :: (β ++ ['>'])) (p ++ s) with
    | false => rfl
    | true =>
      exact absurd (mem_of_containsSub (List.mem_cons_self _ _) hc) hltout
  · rw [hout]
    exact hbodyout

/-- Witness for C3_amended at a concrete single-span input. -/
theorem C3_witness :
    stripAll ("intro ".toList ++ ('<' :: 'F' :: ("oo".toList ++ '>' ::
        ("hello".toList ++ ('<' :: '/' :: 'F' :: ("oo".toList ++ '>' ::
          " outro".toList)))))) = "intro ".toList ++ " outro".toList ∧
    containsSub ('<' :: 'F' :: ("oo".toList ++ ['>']))
      (stripAll ("intro ".toList ++ ('<' :: 'F' :: ("oo".toList ++ '>' ::
        ("hello".toList ++ ('<' :: '/' :: 'F' :: ("oo".toList ++ '>' ::
          " outro".toList))))))) = false ∧
    containsSub ('<' :: '/' :: 'F' :: ("oo".toList ++ ['>']))
      (stripAll ("intro ".toList ++ ('<' :: 'F' :: ("oo".toList ++ '>' ::
        ("hello".toList ++ ('<' :: '/' :: 'F' :: ("oo".toList ++ '>' ::
          " outro".toList))))))) = false ∧
    containsSub "hello".toList
      (stripAll ("intro ".toList ++ ('<' :: 'F' :: ("oo".toList ++ '>' ::
        ("hello".toList ++ ('<' :: '/' :: 'F' :: ("oo".toList ++ '>' ::
          " outro".toList))))))) = false :=
  C3_amended 'F' 'F' "intro ".toList "oo".toList "hello".toList "oo".toList
    " outro".toList (by decide) (by decide) (by decide) (by decide) (by decide)
    (by decide) (by decide) (by decide) (by decide)

/-- Claim C4: on the scenario input the stripper yields exactly the
claimed text with two adjacent spaces, and the Word-processor emitter on
the scenario's rendered HTML yields exactly one level-1 heading Title
and one paragraph with the double-spaced text. -/
theorem C4_scenario :
    stripMdx "# Title\n\nHello <Widget prop=\"x\"/> world\n" =
      "# Title\n\nHello  world\n" ∧
    docxEmit scenarioHtml =
      [DocxBlock.heading 1 "Title", DocxBlock.para "Hello  world"] :=
  ⟨by decide, by decide⟩

/-- Claim C5, counterexample: an occurrence of the word import with no
semicolon on its line survives the stripper even when the input also
contains a well-formed import line, so the output still contains
the import token. -/
theorem C5_cex :
    stripMdx "importado\nimport X from \"Y\";\n" = "importado\n\n" ∧
    containsSub impTok (stripMdx "importado\nimport X from \"Y\";\n").data =
      true :=
  ⟨by decide, by decide⟩

/-- Claim C5, amended: for input containing a whole line of the import
declaration form, where the word import occurs nowhere else in the
text, X and Y hold no semicolon and no newline, and the rest of the
text holds no capitalized-tag match whose removal could splice text,
the stripped output is the surrounding text and contains no
occurrence of the import token. -/
theorem C5_amended (p X Y s : List Char)
    (hp : p = [] ∨ ∃ q, p = q ++ ['\n'])
    (hpim : containsSub impTok p = false)
    (hsim : containsSub impTok s = false)
    (hX1 : ';' ∉ X) (hX2 : '\n' ∉ X) (hY1 : ';' ∉ Y) (hY2 : '\n' ∉ Y)
    (hspan : ∀ i, i < (p ++ s).length → matchSpan ((p ++ s).drop i) = none)
    (hsc : ∀ i, i < (p ++ s).length → matchSelfClose ((p ++ s).drop i) = none) :
    stripAll (p ++ (impTok ++
        ((' ' :: (X ++ (" from \"".toList ++ (Y ++ ['"'])))) ++ ';' :: s))) =
      p ++ s ∧
    containsSub impTok (stripAll (p ++ (impTok ++
        ((' ' :: (X ++ (" from \"".toList ++ (Y ++ ['"'])))) ++ ';' :: s)))) =
      false := by
  have hmid1 : ';' ∉ ' ' :: (X ++ (" from \"".toList ++ (Y ++ ['"']))) := by
    intro hmem
    rcases List.mem_cons.1 hmem with h | h
    · exact absurd h (by decide)
    rcases List.mem_append.1 h with h | h
    · exact hX1 h
    rcases List.mem_append.1 h with h | h
    · exact absurd h (by decide)
    rcases List.mem_append.1 h with h | h
    · exact hY1 h
    · exact absurd h (by decide)
  have hmid2 : '\n' ∉ ' ' :: (X ++ (" from \"".toList ++ (Y ++ ['"']))) := by
    intro hmem
    rcases List.mem_cons.1 hmem with h | h
    · exact absurd h (by decide)
    rcases List.mem_append.1 h with h | h
    · exact hX2 h
    rcases List.mem_append.1 h with h | h
    · exact absurd h (by decide)
    rcases List.mem_append.1 h with h | h
    · exact hY2 h
    · exact absurd h (by decide)
  have h1 := stripImports_line hp hpim hsim hmid1 hmid2
  have h2 : stripSpans (p ++ s) = p ++ s := stripScan_id _ hspan
  have h3 : stripSelfClosing (p ++ s) = p ++ s := stripScan_id _ hsc
  have hout : stripAll (p ++ (impTok ++
      ((' ' :: (X ++ (" from \"".toList ++ (Y ++ ['"'])))) ++ ';' :: s))) =
      p ++ s := by
    show stripSelfClosing (stripSpans (stripImports (p ++ (impTok ++
      ((' ' :: (X ++ (" from \"".toList ++ (Y ++ ['"'])))) ++ ';' :: s))))) =
      p ++ s
    rw [h1, h2, h3]
  refine ⟨hout, ?_⟩
  rw [hout]
  rcases hp with rfl | ⟨q, hq⟩
  · simpa using hsim
  · subst hq
    cases hc : containsSub impTok ((q ++ ['\n']) ++ s) with
    | false => rfl
    | true =>
      exfalso
      have hassoc : (q ++ ['\n']) ++ s = q ++ '\n' :: s := by simp
      rw [hassoc] at hc
      rcases containsSub_break s (by decide) hc with h | h
      · rw [hpim] at h
        exact absurd h (by decide)
      · rw [hsim] at h
        exact absurd h (by decide)

/-- Witness for C5_amended at a concrete import line. -/
theorem C5_witness :
    stripAll ("note\n".toList ++ (impTok ++
        ((' ' :: ("X".toList ++ (" from \"".toList ++ ("Y".toList ++ ['"'])))) ++
          ';' :: "\nrest".toList))) = "note\n".toList ++ "\nrest".toList ∧
    containsSub impTok (stripAll ("note\n".toList ++ (impTok ++
        ((' ' :: ("X".toList ++ (" from \"".toList ++ ("Y".toList ++ ['"'])))) ++
          ';' :: "\nrest".toList)))) = false :=
  C5_amended "note\n".toList "X".toList "Y".toList "\nrest".toList
    (Or.inr ⟨"note".toList, by decide⟩) (by decide) (by decide) (by decide)
    (by decide) (by decide) (by decide) (by decide) (by decide)

/-- Claim C6: an element named h followed by the digit of a level from 1
to 6 is emitted as a document heading styled at exactly that level with
the element's text, and the wrapped HTML document handed to the
paginated-document rasterizer retains the heading text whenever the
rendered fragment contains it. -/
theorem C6_heading (n : Nat) (text frag : String) (children : List Element)
    (h1 : 1 ≤ n) (h2 : n ≤ 6)
    (hfrag : containsSub text.data frag.data = true) :
    docxEmit [Element.mk ("h" ++ toString n) text children] =
      DocxBlock.heading n text :: docxEmit children ∧
    containsSub text.data (pdfDocument frag).data = true := by
  constructor
  · have hmem : ("h" ++ toString n) ∈ docxTags := by
      interval_cases n <;> decide
    rw [docxEmit_cons_mem hmem]
    have hemit : emitBlock (Element.mk ("h" ++ toString n) text children) =
        [DocxBlock.heading n text] := by
      interval_cases n <;> rfl
    rw [hemit]
    rfl
  · show containsSub text.data (pdfPre.data ++ frag.data ++ pdfPost.data) = true
    exact containsSub_mono_right _ _ _ (containsSub_mono_left _ _ _ hfrag)

/-- Witness for C6_heading at a concrete level-2 heading. -/
theorem C6_witness :
    docxEmit [Element.mk ("h" ++ toString 2) "Head" []] =
      DocxBlock.heading 2 "Head" :: docxEmit [] ∧
    containsSub "Head".data (pdfDocument "<h2>Head</h2>").data = true :=
  C6_heading 2 "Head" "<h2>Head</h2>" [] (by decide) (by decide) (by decide)

/-- Claim C7, counterexample: a blockquote element is not in the tag list
handed to soup.find_all, so the Word-processor emitter produces no
output for it at all, not a quote-styled paragraph. -/
theorem C7_cex : docxEmit [Element.mk "blockquote" "Quoted" []] = [] := by
  decide

/-- Claim C7, amended: the Word-processor emitter has no blockquote
mapping; a blockquote element itself contributes nothing to the output
document, only its matching descendants are emitted. -/
theorem C7_amended (t : String) (cs : List Element) :
    docxEmit [Element.mk "blockquote" t cs] = docxEmit cs :=
  docxEmit_cons_not_mem (by decide)

/-- Claim C8, counterexample: pre and code elements, the rendering of a
fenced code block, do get dedicated code-styled paragraph blocks, one
from the pre element and one from its code child, so code fences are not
invisible to the Word-processor emitter. -/
theorem C8_cex :
    docxEmit [Element.mk "pre" "x = 1" [Element.mk "code" "x = 1" []]] =
      [DocxBlock.codePara "x = 1", DocxBlock.codePara "x = 1"] := by
  decide

/-- Claim C8, amended: a tag outside the handled list of h1 to h6, p,
pre, code, ul, ol and li — tables, inline emphasis, images, links —
contributes no dedicated output block; only its matching descendants are
emitted.  Unlike the claim states, pre and code are handled and emit
code-styled paragraphs. -/
theorem C8_amended (n t : String) (cs : List Element) (h : n ∉ docxTags) :
    docxEmit [Element.mk n t cs] = docxEmit cs :=
  docxEmit_cons_not_mem h

/-- Witness for C8_amended at a concrete table element. -/
theorem C8_witness : docxEmit [Element.mk "table" "cell" []] = docxEmit [] :=
  C8_amended "table" "cell" [] (by decide)

/-- Claim C9: for single-file invocation a missing input path, or an
input file whose lowercased extension is not the recognized source
extension, makes main exit with code 1 without writing any output. -/
theorem C9_fatal (suf : String) (f : SrcFile) (fmts : List String)
    (h : suf ≠ ".mdx") :
    mainModel (InputPath.file suf f) fmts = ⟨[], 1⟩ ∧
    mainModel InputPath.missing fmts = ⟨[], 1⟩ :=
  ⟨by simp [mainModel, h], rfl⟩

/-- Witness for C9_fatal at a concrete wrong extension. -/
theorem C9_witness :
    mainModel (InputPath.file ".txt" ⟨"a", fun _ => true⟩) ["pdf", "docx"] =
      ⟨[], 1⟩ ∧
    mainModel InputPath.missing ["pdf", "docx"] = ⟨[], 1⟩ :=
  C9_fatal ".txt" ⟨"a", fun _ => true⟩ ["pdf", "docx"] (by decide)

/-- Claim C10: the Markup Stripper is the identity on text in which no
position starts an import-declaration match, a paired-span match or a
self-closing tag match. -/
theorem C10_identity (l : List Char)
    (h1 : ∀ i, i < l.length → matchImport (l.drop i) = none)
    (h2 : ∀ i, i < l.length → matchSpan (l.drop i) = none)
    (h3 : ∀ i, i < l.length → matchSelfClose (l.drop i) = none) :
    stripAll l = l := by
  show stripSelfClosing (stripSpans (stripImports l)) = l
  rw [show stripImports l = l from stripScan_id l h1,
    show stripSpans l = l from stripScan_id l h2,
    show stripSelfClosing l = l from stripScan_id l h3]

/-- Witness for C10_identity at a concrete markup-free text. -/
theorem C10_witness :
    stripAll "hello world\n".toList = "hello world\n".toList :=
  C10_identity _ (by decide) (by decide) (by decide)

end MdxConverter

